import Mathlib

/-!
A verification development for the Corset front-end semantic engine.

The Rust sources embedded here are `compiler/generator.rs`,
`compiler/definitions.rs`, `compiler/common.rs` and `compute.rs`.
Pure functions become Lean functions; the mutating symbol-table
operations become functions returning new values or `Except` errors;
panics (`unwrap` on data that the caller must guarantee) are modelled
by `Option`/`none`.  Field elements of the BN254 scalar field are
modelled as `Fin P` with explicit modular arithmetic; names are
`List Char`.
-/
/-- The BN254 scalar field modulus (the prime `r`), as used by `pairing_ce::bn256::Fr`. -/
def P : Nat := 21888242871839275222246405745257275088548364400416034343698204186575808495617

instance : NeZero P := ⟨by decide⟩

/-- Field elements: canonical representatives of the BN254 scalar field. -/
abbrev Fr : Type := Fin P

/-- The canonical ordering on `Fr`: compare canonical (least) representatives,
as `Fr::cmp` does on the canonical representation. -/
def frCompare (a b : Fr) : Ordering := compare a.val b.val

/-- Field inverse as exposed by `Fr::inverse`: `none` for zero, the multiplicative
inverse otherwise (for the prime `P`, Fermat exponentiation computes it). -/
def Fr.inverse (x : Fr) : Option Fr := if x = 0 then none else some (x ^ (P - 2))

/-- Modelled from the spec: the magma component of the type lattice (§3.2),
`Boolean ⊂ Integer`.  The defining `compiler/mod.rs` is not among the sources;
only its uses in `generator.rs` are. -/
inductive Magma where
  | Boolean
  | Integer
  deriving DecidableEq, Repr

/-- Modelled from the spec: join on magmas (`Boolean < Integer`). -/
def Magma.max : Magma → Magma → Magma
  | .Boolean, .Boolean => .Boolean
  | _, _ => .Integer

/-- Modelled from the spec: the type lattice (§3.2).  A type is a pair of a
scale (`Void`, `Scalar`, `Column`, `List`) and a magma; `Void` carries no magma. -/
inductive Type' where
  | Void
  | Scalar (m : Magma)
  | Column (m : Magma)
  | List (m : Magma)
  deriving DecidableEq, Repr

/-- Modelled from the spec: the magma of a type; `Void` yields the infimum magma. -/
def Type'.magma : Type' → Magma
  | .Void => .Boolean
  | .Scalar m => m
  | .Column m => m
  | .List m => m

/-- Modelled from the spec: the scale axis as a rank, ordered
`Void < Scalar < Column < List` (`Column` dominates `Scalar`; `List` results
from collecting values, `Void` is the absence of a value). -/
def Type'.scaleRank : Type' → Nat
  | .Void => 0
  | .Scalar _ => 1
  | .Column _ => 2
  | .List _ => 3

/-- Modelled from the spec: rebuild a type from a scale rank and a magma. -/
def Type'.ofRank : Nat → Magma → Type'
  | 0, _ => .Void
  | 1, m => .Scalar m
  | 2, m => .Column m
  | _, m => .List m

/-- Modelled from the spec: the lattice join, taken componentwise on
(scale, magma). -/
def Type'.max (a b : Type') : Type' :=
  Type'.ofRank (Nat.max a.scaleRank b.scaleRank) (Magma.max a.magma b.magma)

/-- Modelled from the spec: the infimum of the value types, `Scalar(Boolean)`. -/
def Type'.INFIMUM : Type' := .Scalar .Boolean

/-- Modelled from the spec: a type is `value` iff it is `Scalar` or `Column`. -/
def Type'.is_value : Type' → Bool
  | .Scalar _ => true
  | .Column _ => true
  | _ => false

/-- Modelled from the spec: a type is `scalar` iff its scale is `Scalar`. -/
def Type'.is_scalar : Type' → Bool
  | .Scalar _ => true
  | _ => false

/-- Modelled from the spec: a type is `column` iff its scale is `Column`. -/
def Type'.is_column : Type' → Bool
  | .Column _ => true
  | _ => false

/-- Modelled from the spec: a type is `bool` iff its magma is `Boolean`. -/
def Type'.is_bool (t : Type') : Bool :=
  match t.magma with
  | .Boolean => true
  | .Integer => false

/-- Modelled from the spec: keep the scale, replace the magma
(`Type::same_scale`, used by `Builtin::typing` for `not`). -/
def Type'.same_scale : Type' → Magma → Type'
  | .Void, _ => .Void
  | .Scalar _, m => .Scalar m
  | .Column _, m => .Column m
  | .List _, m => .List m

/-- The builtins of `generator.rs` (`enum Builtin`). -/
inductive Builtin where
  | Add
  | Sub
  | Mul
  | Exp
  | Shift
  | Neg
  | Inv
  | Not
  | Nth
  | Eq
  | Begin
  | IfZero
  | IfNotZero
  | ByteDecomposition
  deriving DecidableEq, Repr

/-- `Builtin::typing` from `generator.rs`: the result type of a builtin applied
to arguments of the given types.  Rust indexes `argtype[0]`/`argtype[1]` after
arity validation; the out-of-range default here is never reached on validated
calls. -/
def typing (b : Builtin) (argtype : List Type') : Type' :=
  match b with
  | .Add | .Sub | .Neg | .Inv =>
    -- Boolean is a corner case, as it is not stable under these operations
    match argtype.foldl (fun a b => a.max b) Type'.INFIMUM with
    | .Scalar .Boolean => .Scalar .Integer
    | .Column .Boolean => .Column .Integer
    | x => x
  | .Exp => argtype.getD 0 Type'.Void
  | .Eq => argtype.foldl (fun a b => a.max b) Type'.INFIMUM
  | .Not => (argtype.foldl (fun a b => a.max b) Type'.INFIMUM).same_scale .Boolean
  | .Mul => argtype.foldl (fun a b => a.max b) Type'.INFIMUM
  | .IfZero | .IfNotZero => (argtype.getD 1 Type'.Void).max (argtype.getD 2 Type'.INFIMUM)
  | .Begin => .List (argtype.foldl (fun a b => a.max b) Type'.INFIMUM).magma
  | .Shift | .Nth => argtype.getD 0 Type'.Void
  | .ByteDecomposition => .Void

/-- A handle uniquely and absolutely identifies a symbol (`common.rs`).
The late-bound `id` cache does not take part in equality or hashing in the
source, so it is omitted here; names are lists of characters. -/
structure Handle where
  module : List Char
  name : List Char
  deriving DecidableEq, Repr

/-- The module separator of `common.rs` (`MODULE_SEPARATOR = "__"`). -/
def moduleSeparator : List Char := ['_', '_']

/-- The array-index separator of `common.rs` (`ARRAY_SEPARATOR = "_"`). -/
def arraySeparator : List Char := ['_']

/-- The opening-brace character, kept out of literals. -/
def lbraceChar : Char := Char.ofNat 123

/-- The closing-brace character, kept out of literals. -/
def rbraceChar : Char := Char.ofNat 125

/-- ASCII test on characters, as Rust `char::is_ascii` (code point below 128). -/
def isAsciiChar (c : Char) : Bool := c.toNat < 128

/-- One `str::replace(pat, rep)` step on a single-character pattern. -/
def replaceChar (pat : Char) (rep : List Char) (s : List Char) : List Char :=
  s.flatMap (fun c => if c = pat then rep else [c])

/-- The final `replace(|c| !c.is_ascii(), "_")` step of `Handle::purify`. -/
def replaceNonAscii (s : List Char) : List Char :=
  s.map (fun c => if isAsciiChar c then c else '_')

/-- `Handle::purify` from `common.rs`: the chained character replacements, in
source order (`(` innermost, the non-ASCII replacement outermost). -/
def purify (s : List Char) : List Char :=
  replaceNonAscii
    (replaceChar '/' ['d', 'i', 'v']
      (replaceChar '+' ['a', 'd', 'd']
        (replaceChar '*' ['m', 'u', 'l']
          (replaceChar '-' ['s', 'u', 'b']
            (replaceChar '.' ['_']
              (replaceChar '%' ['_']
                (replaceChar ':' ['_']
                  (replaceChar '>' []
                    (replaceChar '<' []
                      (replaceChar ']' ['_']
                        (replaceChar '[' ['_']
                          (replaceChar rbraceChar ['_']
                            (replaceChar lbraceChar ['_']
                              (replaceChar ')' ['_']
                                (replaceChar '(' ['_'] s)))))))))))))))

/-- `Handle::mangle` from `common.rs`: purified module, the module separator
when the module is nonempty, then the purified name. -/
def Handle.mangle (h : Handle) : List Char :=
  purify h.module
    ++ (if h.module = [] then [] else moduleSeparator)
    ++ purify h.name

/-- The characters `Handle::purify` rewrites or removes. -/
def specialChars : List Char :=
  ['(', ')', lbraceChar, rbraceChar, '[', ']', '<', '>', ':', '%', '.', '-', '*', '+', '/']

/-- A character that `purify` leaves unchanged and that cannot collide with the
module separator:  ASCII, not rewritten, and not an underscore. -/
def charOk (c : Char) : Prop :=
  isAsciiChar c = true ∧ c ∉ specialChars ∧ c ≠ '_'

instance (c : Char) : Decidable (charOk c) := by
  unfold charOk
  infer_instance

/-- `ConstraintSet::compute_all` from `generator.rs`: run every computation in
table order; a failing computation is only recorded as a warning (second
component) and the overall result is always `Ok`.  The per-index computation
is abstracted as a function, as `self.compute(i)` is in the source. -/
def compute_all {E : Type} (n : Nat) (compute : Nat → Except E Unit) :
    Except E Unit × List E :=
  ((List.range n).foldl
    (fun acc i =>
      match compute i with
      | .error e => (acc.1, acc.2 ++ [e])
      | .ok _ => acc)
    (Except.ok (), []))

/-- The error component of an `Except`, if any. -/
def errOf {E : Type} : Except E Unit → Option E
  | .error e => some e
  | .ok _ => none

mutual
/-- Kinds of columns (`Kind<Box<Expression>>` in `generator.rs`); `Composite`
carries the defining expression. -/
inductive EKind where
  | Atomic
  | Phantom
  | Composite (e : Expression)
  | Interleaved (froms : List Handle)

/-- The expression tree of `generator.rs` (`enum Expression`).  `Const` keeps
the integer together with its field embedding when it fits; `EList` is the
`List` variant. -/
inductive Expression where
  | Funcall (func : Builtin) (args : List Expression)
  | Const (v : Int) (fr : Option Fr)
  | Column (h : Handle) (t : Type') (k : EKind)
  | ArrayColumn (h : Handle) (range : List Nat) (t : Type')
  | EList (xs : List Expression)
  | Void
end

/-- A typed node (`Node` of `compiler/mod.rs` as used by `definitions.rs`):
an expression with its cached optional type. -/
structure Node where
  _e : Expression
  _t : Option Type'

/-- Whether an expression is a compile-time constant (`matches!(e, Const(..))`). -/
def Expression.isConst : Expression → Bool
  | .Const _ _ => true
  | _ => false

/-- A symbol-table entry (`enum Symbol` of `definitions.rs`). -/
inductive SymEntry where
  | Alias (target : List Char)
  | Final (node : Node) (used : Bool)

/-- The special forms of `common.rs` (`enum Form`). -/
inductive Form where
  | For
  | Let
  | Debug
  deriving DecidableEq, Repr

/-- The classes of callable objects (`enum FunctionClass` of `generator.rs`).
The body AST of a user-defined function is not inspected by resolution and is
omitted; its formal parameters and purity are kept. -/
inductive FunctionClass where
  | UserDefined (pure : Bool) (args : List (List Char))
  | SpecialForm (f : Form)
  | Builtin (b : Builtin)
  | Alias (tgt : List Char)

/-- A named function (`struct Function` of `generator.rs`). -/
structure Function' where
  handle : Handle
  fclass : FunctionClass

/-- Assoc-list lookup, the shallow model of `HashMap::get` (keys are unique in
a `HashMap`, so first-match lookup agrees with it). -/
def lookupS {α : Type} : List (List Char × α) → List Char → Option α
  | [], _ => none
  | (k, v) :: rest, n => if k = n then some v else lookupS rest n

/-- A symbol-table scope (`struct SymbolTable` of `definitions.rs`): closed
flag, name, symbols, functions and the weak parent back-link.  Child scopes,
constraint names and the computation table take no part in the claims embedded
here and are omitted; the parent link is a direct option. -/
inductive STree where
  | mk (closed : Bool) (name : List Char) (symbols : List (List Char × SymEntry))
      (funcs : List (List Char × Function')) (parent : Option STree)

/-- The `closed` flag of a scope. -/
def STree.closed : STree → Bool
  | .mk c _ _ _ _ => c

/-- The name of a scope. -/
def STree.sname : STree → List Char
  | .mk _ n _ _ _ => n

/-- The symbols of a scope. -/
def STree.symbols : STree → List (List Char × SymEntry)
  | .mk _ _ s _ _ => s

/-- The functions of a scope. -/
def STree.funcs : STree → List (List Char × Function')
  | .mk _ _ _ f _ => f

/-- The parent of a scope. -/
def STree.parent : STree → Option STree
  | .mk _ _ _ _ p => p

/-- Replace the symbol list of a scope. -/
def STree.withSymbols : STree → List (List Char × SymEntry) → STree
  | .mk c n _ f p, s => .mk c n s f p

/-- Replace the parent of a scope. -/
def STree.withParent : STree → Option STree → STree
  | .mk c n s f _, p => .mk c n s f p

/-- The resolution errors of `definitions.rs` (each `anyhow!` message keyed by
its kind and offending name). -/
inductive ResolveErr where
  | circular (name : List Char)
  | unknownSymbol (name : List Char) (module : List Char)
  | impureUse (name : List Char)
  | unknownFunction (name : List Char)
  | unknownColumn (name : List Char) (module : List Char)
  deriving DecidableEq, Repr

/-- The number of symbol names not yet visited: the termination measure of
alias chasing inside one scope. -/
def countNew (symbols : List (List Char × SymEntry)) (ax : List (List Char)) : Nat :=
  ((symbols.map Prod.fst).filter (fun n => decide (n ∉ ax))).length

/-- A successful lookup means the key occurs among the keys. -/
def mem_of_lookupS {α : Type} (l : List (List Char × α)) (n : List Char) (v : α)
    (h : lookupS l n = some v) : n ∈ l.map Prod.fst := by
  induction l with
  | nil => exact absurd h (by simp [lookupS])
  | cons p rest ih =>
    by_cases hk : p.1 = n
    · rw [List.map_cons]
      exact hk ▸ List.mem_cons_self p.1 _
    · rcases p with ⟨k, w⟩
      simp only [lookupS, if_neg hk] at h
      simp only [List.map_cons, List.mem_cons]
      exact Or.inr (ih h)

/-- Filtering by a stronger predicate gives a shorter or equal list. -/
def length_filter_imp {α : Type} (l : List α) (p q : α → Bool)
    (h : ∀ a, p a = true → q a = true) :
    (l.filter p).length ≤ (l.filter q).length := by
  induction l with
  | nil => simp
  | cons x xs ih =>
    by_cases hx : p x = true
    · simp [List.filter_cons, hx, h x hx]
      omega
    · simp only [List.filter_cons]
      rw [if_neg (by simpa using hx)]
      by_cases hq : q x = true
      · rw [if_pos (by simpa using hq)]
        simp
        omega
      · rw [if_neg (by simpa using hq)]
        exact ih

/-- Visiting one more present name strictly decreases the unvisited count. -/
def countNew_lt (symbols : List (List Char × SymEntry)) (ax : List (List Char))
    (name : List Char) (hmem : name ∉ ax) (hin : name ∈ symbols.map Prod.fst) :
    countNew symbols (name :: ax) < countNew symbols ax := by
  unfold countNew
  induction symbols with
  | nil => exact absurd hin (by simp)
  | cons p rest ih =>
    by_cases hp : p.1 = name
    · have hle := length_filter_imp (rest.map Prod.fst)
        (fun m => decide (m ∉ name :: ax)) (fun m => decide (m ∉ ax))
        (by
          intro a ha
          simp only [decide_eq_true_eq] at ha ⊢
          exact fun hc => ha (List.mem_cons_of_mem _ hc))
      simp only [List.map_cons, List.filter_cons, hp]
      rw [if_neg (by simp), if_pos (by simpa using hmem)]
      simp only [List.length_cons]
      omega
    · have hin2 : name = p.1 ∨ name ∈ rest.map Prod.fst := by
        rw [List.map_cons] at hin
        exact List.mem_cons.mp hin
      rcases hin2 with he | hin'
      · exact absurd he.symm hp
      · simp only [List.map_cons, List.filter_cons]
        have hiff : (decide (p.1 ∉ name :: ax)) = (decide (p.1 ∉ ax)) := by
          by_cases hax : p.1 ∈ ax
          · rw [decide_eq_false
                (show ¬ (p.1 ∉ name :: ax) from fun hn => hn (List.mem_cons_of_mem _ hax)),
              decide_eq_false (show ¬ (p.1 ∉ ax) from fun hn => hn hax)]
          · rw [decide_eq_true
                (show p.1 ∉ name :: ax from
                  fun hc => (List.mem_cons.mp hc).elim (fun he => hp he) hax),
              decide_eq_true (show p.1 ∉ ax from hax)]
        rw [hiff]
        by_cases hax : p.1 ∉ ax
        · rw [if_pos (by simpa using hax), if_pos (by simpa using hax)]
          simp only [List.length_cons]
          have := ih hin'
          omega
        · rw [if_neg (by simpa using hax), if_neg (by simpa using hax)]
          exact ih hin'

/-- A scope is structurally larger than its parent. -/
def sizeOf_parent_lt (t p : STree) (h : t.parent = some p) :
    sizeOf p < sizeOf t := by
  cases t with
  | mk c n s f po =>
    simp only [STree.parent] at h
    subst h
    simp only [STree.mk.sizeOf_spec, Option.some.sizeOf_spec]
    omega

/-- `SymbolTable::_resolve_symbol` from `definitions.rs`.  The `used` flag
mutation on the resolved `Final` has no bearing on resolution results and is
not threaded through.  Alias hops keep the visited set; the climb to the
parent restarts it with a fresh set and switches to pure mode when the current
scope is closed. -/
def _resolve_symbol (t : STree) (name : List Char) (ax : List (List Char))
    (absolute_path pure : Bool) : Except ResolveErr Node :=
  if hmem : name ∈ ax then .error (.circular name)
  else
    match hsym : lookupS t.symbols name with
    | some (.Alias target) => _resolve_symbol t target (name :: ax) absolute_path pure
    | some (.Final exp _) =>
      if pure && !exp._e.isConst then .error (.impureUse name)
      else .ok exp
    | none =>
      if absolute_path then .error (.unknownSymbol name t.sname)
      else
        match hpar : t.parent with
        | some p => _resolve_symbol p name [] false (t.closed || pure)
        | none => .error (.unknownSymbol name t.sname)
termination_by (sizeOf t, countNew t.symbols ax)
decreasing_by
  · apply Prod.Lex.right
    exact countNew_lt t.symbols ax name hmem (mem_of_lookupS _ _ _ hsym)
  · apply Prod.Lex.left
    exact sizeOf_parent_lt t p hpar

/-- `SymbolTable::resolve_symbol` for plain (non-dotted) names.  The dotted
branch re-roots and descends the module children, which no embedded claim
exercises. -/
def resolve_symbol (t : STree) (name : List Char) : Except ResolveErr Node :=
  _resolve_symbol t name [] false false

/-- `SymbolTable::_edit_symbol` from `definitions.rs`.  On an `Alias` the
source recurses on the same `name` (not the alias target) with the name
already recorded in the visited set; on a miss it restarts at the parent with
a fresh set (`parent.edit_symbol`). -/
def _edit_symbol (t : STree) (name : List Char) (f : Expression → Expression)
    (ax : List (List Char)) : Except ResolveErr STree :=
  if hmem : name ∈ ax then .error (.circular name)
  else
    match hsym : lookupS t.symbols name with
    | some (.Alias _) => _edit_symbol t name f (name :: ax)
    | some (.Final exp used) =>
      .ok (t.withSymbols (t.symbols.map
        (fun p => if p.1 = name then (p.1, SymEntry.Final ⟨f exp._e, exp._t⟩ used) else p)))
    | none =>
      match hpar : t.parent with
      | some p => (_edit_symbol p name f []).map (fun q => t.withParent (some q))
      | none => .error (.unknownColumn name t.sname)
termination_by (sizeOf t, countNew t.symbols ax)
decreasing_by
  · apply Prod.Lex.right
    exact countNew_lt t.symbols ax name hmem (mem_of_lookupS _ _ _ hsym)
  · apply Prod.Lex.left
    exact sizeOf_parent_lt t p hpar

/-- `SymbolTable::edit_symbol` from `definitions.rs`: start with an empty
visited set. -/
def edit_symbol (t : STree) (name : List Char) (f : Expression → Expression) :
    Except ResolveErr STree :=
  _edit_symbol t name f []

/-- `SymbolTable::_resolve_function` from `definitions.rs`, made total with an
explicit step budget: the source follows a function `Alias` by calling the
public `resolve_function`, which passes a FRESH `HashSet::new()` visited set,
so the visited-set check can never fire across alias hops and a cyclic chain
recurses without bound.  `none` means the budget was exhausted without the
source ever returning. -/
def resolve_function_fuel : Nat → STree → List Char → List (List Char) →
    Option (Except ResolveErr Function')
  | 0, _, _, _ => none
  | fuel + 1, t, name, ax =>
    if name ∈ ax then some (.error (.circular name))
    else
      match lookupS t.funcs name with
      | some ⟨_, .Alias tgt⟩ => resolve_function_fuel fuel t tgt []
      | some f => some (.ok f)
      | none =>
        match t.parent with
        | some p => resolve_function_fuel fuel p name []
        | none => some (.error (.unknownFunction name))

/-- The name `a`, used by the concrete resolution examples. -/
def aName : List Char := ['a']

/-- The name `b`, used by the concrete resolution examples. -/
def bName : List Char := ['b']

/-- The name `x`, used by the concrete resolution examples. -/
def xName : List Char := ['x']

/-- The name `y`, used by the concrete resolution examples. -/
def yName : List Char := ['y']

/-- A non-constant node: a column reference, as produced for a declared column. -/
def colNode : Node :=
  ⟨Expression.Column ⟨['m'], xName⟩ (Type'.Column .Boolean) .Atomic,
    some (Type'.Column .Boolean)⟩

/-- A scope carrying the cyclic aliases `a → b → a`, both as symbols and as
functions. -/
def cyclicScope : STree :=
  .mk true ['r']
    [(aName, .Alias bName), (bName, .Alias aName)]
    [(aName, ⟨⟨['r'], aName⟩, .Alias bName⟩), (bName, ⟨⟨['r'], bName⟩, .Alias aName⟩)]
    none

/-- A closed scope binding `x` locally to a column (not a `Const`). -/
def localClosedScope : STree :=
  .mk true ['f'] [(xName, .Final colNode false)] [] none

/-- A parent scope binding `y` to a column, under a closed child scope. -/
def parentWithColumn : STree :=
  .mk false ['r'] [(yName, .Final colNode false)] [] none

/-- A closed scope without local bindings whose parent is `parentWithColumn`. -/
def closedChildScope : STree :=
  .mk true ['f'] [] [] (some parentWithColumn)

/-- A scope with an alias `x → y` and a final `y`. -/
def aliasScope : STree :=
  .mk false ['m'] [(xName, .Alias yName), (yName, .Final colNode false)] [] none

/-- `Handle::ith` from `common.rs`: the handle of the `i`-th column of an array
column family, named with the array separator. -/
def Handle.ith (h : Handle) (i : Nat) : Handle :=
  ⟨h.module, h.name ++ arraySeparator ++ (Nat.repr i).data⟩

/-- `Expression::one()` from `generator.rs`. -/
def Expression.one : Expression := .Const 1 (some 1)

/-- `Expression::zero()` from `generator.rs`. -/
def Expression.zero : Expression := .Const 0 (some 0)

mutual
/-- `Expression::pure_eval` from `generator.rs`: compile-time evaluation of
`+`, `-`, `*`, `neg` over `Const` leaves; everything else is not known at
compile time (`none`). -/
def pure_eval : Expression → Option Int
  | .Funcall .Add args =>
    (pure_eval_list args).map (fun xs => xs.foldl (fun ax x => ax + x) 0)
  | .Funcall .Sub args =>
    (pure_eval_list args).bind (fun xs =>
      match xs with
      | [] => none
      | a :: rest => some (rest.foldl (fun ax x => ax - x) a))
  | .Funcall .Mul args =>
    (pure_eval_list args).map (fun xs => xs.foldl (fun ax x => ax * x) 1)
  | .Funcall .Neg args =>
    match args with
    | a :: _ => (pure_eval a).map (fun x => -x)
    | [] => none
  | .Funcall _ _ => none
  | .Const v _ => some v
  | _ => none

/-- Compile-time evaluation of an argument list, failing if any member fails. -/
def pure_eval_list : List Expression → Option (List Int)
  | [] => some []
  | a :: rest =>
    (pure_eval a).bind (fun x => (pure_eval_list rest).map (fun xs => x :: xs))
end

mutual
/-- `Expression::t` from `generator.rs`: the type of an expression. -/
def Expression.t : Expression → Type'
  | .Funcall func args => typing func (typeList args)
  | .Const x _ =>
    if x = 0 ∨ x = 1 then Type'.Scalar .Boolean else Type'.Scalar .Integer
  | .Column _ t _ => t
  | .ArrayColumn _ _ t => t
  | .EList xs =>
    Type'.List ((typeList xs).foldl (fun a b => a.max b) Type'.INFIMUM).magma
  | .Void => Type'.Void

/-- The types of a list of expressions (`args.iter().map(|a| a.t())`). -/
def typeList : List Expression → List Type'
  | [] => []
  | x :: rest => x.t :: typeList rest
end

/-- `Builtin::call` from `generator.rs`. -/
def Builtin.call (b : Builtin) (args : List Expression) : Expression :=
  .Funcall b args

/-- `Builtin::call_t` from `generator.rs`: the call together with its computed
type. -/
def Builtin.call_t (b : Builtin) (args : List Expression) : Expression × Type' :=
  (.Funcall b args, typing b (typeList args))

mutual
/-- `Expression::eval` from `generator.rs`: evaluate an expression at row `i`
against a column lookup `get` under wrapping mode `wrap`.  Panics
(`unwrap` on malformed arguments, `unreachable!`) are modelled by `none`.  The
inversion cache only memoises `Fr::inverse` and cannot change results, so it
is not modelled; the cacheless branch of `Inv` is embedded, including its
quirk of turning a failed subevaluation into `0`. -/
def evalE : Expression → Int → (Handle → Int → Bool → Option Fr) → Bool → Option Fr
  | .Funcall .Add args, i, get, wrap => evalFold (fun a b => a + b) 0 args i get wrap
  | .Funcall .Sub args, i, get, wrap =>
    match args with
    | [] => none
    | a :: rest =>
      (evalE a i get wrap).bind (fun ax => evalFold (fun u v => u - v) ax rest i get wrap)
  | .Funcall .Mul args, i, get, wrap => evalFold (fun a b => a * b) 1 args i get wrap
  | .Funcall .Exp args, i, get, wrap =>
    match args with
    | a :: b :: _ =>
      (evalE a i get wrap).bind (fun mantissa =>
        match pure_eval b with
        | some e => if e < 0 then none else some (mantissa ^ e.toNat)
        | none => none)
    | _ => none
  | .Funcall .Shift args, i, get, _ =>
    match args with
    | a :: b :: _ =>
      match pure_eval b with
      | some k => evalE a (i + k) get false
      | none => none
    | _ => none
  | .Funcall .Eq args, i, get, wrap =>
    match args with
    | x :: y :: _ =>
      (evalE x i get wrap).bind (fun xv =>
        (evalE y i get wrap).bind (fun yv =>
          if x.t.is_bool && y.t.is_bool then
            -- 1 - (/A + B)×(A + /B)
            some (1 - ((1 - xv + yv) * (1 - yv + xv)))
          else
            some (xv - yv)))
    | _ => none
  | .Funcall .Neg args, i, get, wrap =>
    match args with
    | a :: _ => (evalE a i get wrap).map (fun x => -x)
    | [] => none
  | .Funcall .Inv args, i, get, wrap =>
    match args with
    | a :: _ =>
      match (evalE a i get wrap).bind Fr.inverse with
      | none => some 0
      | r => r
    | [] => none
  | .Funcall .Not args, i, get, wrap =>
    match args with
    | a :: _ => (evalE a i get wrap).map (fun x => 1 - x)
    | [] => none
  | .Funcall .Nth args, i, get, wrap =>
    match args with
    | .ArrayColumn h range _ :: .Const idx _ :: _ =>
      if idx < 0 then none
      else if range.contains idx.toNat then get (h.ith idx.toNat) i wrap
      else none
    | _ => none
  | .Funcall .Begin _, _, _, _ => none
  | .Funcall .IfZero args, i, get, wrap =>
    match args with
    | c :: a :: rest =>
      (evalE c i get wrap).bind (fun cv =>
        if cv = 0 then evalE a i get wrap
        else
          match rest with
          | b :: _ => evalE b i get wrap
          | [] => some 0)
    | _ => none
  | .Funcall .IfNotZero args, i, get, wrap =>
    match args with
    | c :: a :: rest =>
      (evalE c i get wrap).bind (fun cv =>
        if cv ≠ 0 then evalE a i get wrap
        else
          match rest with
          | b :: _ => evalE b i get wrap
          | [] => some 0)
    | _ => none
  | .Funcall .ByteDecomposition _, _, _, _ => none
  | .Const v fr, _, _, _ => fr
  | .Column h _ _, i, get, wrap => get h i wrap
  | .EList xs, i, get, wrap =>
    match (evalFilter xs i get wrap).find? (fun v => !(v == 0)) with
    | some v => some v
    | none => some 0
  | .ArrayColumn _ _ _, _, _, _ => none
  | .Void, _, _, _ => none

/-- The evaluation fold of `+`, `-`, `*` (`add_assign`/`sub_assign`/
`mul_assign` over the argument list, failing on the first failed argument). -/
def evalFold : (Fr → Fr → Fr) → Fr → List Expression → Int →
    (Handle → Int → Bool → Option Fr) → Bool → Option Fr
  | _, ax, [], _, _, _ => some ax
  | f, ax, a :: rest, i, get, wrap =>
    (evalE a i get wrap).bind (fun v => evalFold f (f ax v) rest i get wrap)

/-- The `filter_map` of `List` evaluation: failed members are silently
dropped. -/
def evalFilter : List Expression → Int → (Handle → Int → Bool → Option Fr) → Bool → List Fr
  | [], _, _, _ => []
  | a :: rest, i, get, wrap =>
    match evalE a i get wrap with
    | some v => v :: evalFilter rest i get wrap
    | none => evalFilter rest i get wrap
end

/-- The `Builtin::Eq` branch of `apply` from `generator.rs` (after argument
traversal): on two boolean-typed arguments the call is lowered to
`1 - (((1 - y) + x) × ((1 - x) + y))`, otherwise to `x - y`, in both cases
typed by `call_t`. -/
def applyEq (x : Expression) (tx : Type') (y : Expression) (ty : Type') :
    Expression × Type' :=
  if tx.is_bool && ty.is_bool then
    Builtin.Sub.call_t [Expression.one,
      Builtin.Mul.call [
        Builtin.Add.call [Builtin.Sub.call [Expression.one, y], x],
        Builtin.Add.call [Builtin.Sub.call [Expression.one, x], y]]]
  else
    Builtin.Sub.call_t [x, y]

/-- A boolean-typed column node `m.x`, as the reducer produces for a declared
boolean column. -/
def xCol : Expression := .Column ⟨['m'], xName⟩ (Type'.Column .Boolean) .Atomic

/-- A boolean-typed column node `m.y`. -/
def yCol : Expression := .Column ⟨['m'], yName⟩ (Type'.Column .Boolean) .Atomic

/-- A row lookup giving `x = 1` and `y = 0`. -/
def getXY : Handle → Int → Bool → Option Fr :=
  fun h _ _ =>
    if h = ⟨['m'], xName⟩ then some 1
    else if h = ⟨['m'], yName⟩ then some 0 else none

/-- The evaluator errors of `generator.rs` column computations. -/
inductive ComputeErr where
  | incoherentLengths
  deriving DecidableEq, Repr

/-- The `windows(2).all(|w| w[0] == w[1])` check on the column lengths:
all adjacent pairs equal. -/
def windowsAllEq : List Nat → Bool
  | [] => true
  | [_] => true
  | a :: b :: rest => a == b && windowsAllEq (b :: rest)

/-- `ConstraintSet::compute_interleaved` from `generator.rs`, with the source
columns already computed and given by value: check that all lengths agree
(pairwise, as `windows(2)` does), then emit `len × count` values where entry
`k` copies row `k / count` of column `k % count`.  Indexing an empty `froms`
(`froms[0]`) is a panic, modelled by `none`. -/
def compute_interleaved (froms : List (List Fr)) : Option (Except ComputeErr (List Fr)) :=
  if !(windowsAllEq (froms.map List.length)) then some (.error .incoherentLengths)
  else
    match froms with
    | [] => none
    | f0 :: _ =>
      let len := f0.length
      let count := froms.length
      some (.ok ((List.range (len * count)).map
        (fun k => (froms.getD (k % count) []).getD (k / count) 0)))

/-- The lexicographic row comparator of `ConstraintSet::compute_sorted`: walk
the columns left to right, return the first non-equal canonical comparison. -/
def lexCmp (froms : List (List Fr)) (i j : Nat) : Ordering :=
  match froms with
  | [] => .eq
  | f :: rest =>
    match frCompare (f.getD i 0) (f.getD j 0) with
    | .lt => .lt
    | .gt => .gt
    | .eq => lexCmp rest i j

/-- The `sort_by` ordering as a boolean: index `i` may precede index `j` when
the row comparison is not `Greater`. -/
def sortLe (froms : List (List Fr)) (i j : Nat) : Bool :=
  !(lexCmp froms i j == .gt)

/-- The row tuple of the source columns at one index. -/
def rowOf (froms : List (List Fr)) (i : Nat) : List Fr :=
  froms.map (fun f => f.getD i 0)

/-- Lexicographic comparison of two row tuples, element by element. -/
def lexCmpRows : List Fr → List Fr → Ordering
  | [], _ => .eq
  | _ :: _, [] => .eq
  | a :: rs, b :: ss =>
    match frCompare a b with
    | .lt => .lt
    | .gt => .gt
    | .eq => lexCmpRows rs ss

/-- `ConstraintSet::compute_sorted` from `generator.rs`, with the source
columns already computed and given by value: check pairwise-equal lengths,
stably sort the row indices by the lexicographic comparator (Rust `sort_by`
is a stable merge sort), and return the values written into the targets —
`tos[k]` is `froms[k]` read through the sorted index list.  Indexing an empty
`from_cols[0]` is a panic, modelled by `none`. -/
def compute_sorted (froms : List (List Fr)) : Option (Except ComputeErr (List (List Fr))) :=
  if !(windowsAllEq (froms.map List.length)) then some (.error .incoherentLengths)
  else
    match froms with
    | [] => none
    | f0 :: _ =>
      let len := f0.length
      let sorted_is := (List.range len).mergeSort (sortLe froms)
      some (.ok (froms.map (fun f => sorted_is.map (fun i => f.getD i 0))))

/-- The doubling loop of Rust `usize::next_power_of_two`, with explicit fuel
so that it stays structurally recursive (fuel `n` always suffices, since
`2 ^ n ≥ n`). -/
def nextPow2Go : Nat → Nat → Nat → Nat
  | 0, _, power => power
  | fuel + 1, n, power => if power < n then nextPow2Go fuel n (power * 2) else power

/-- Rust `usize::next_power_of_two`: the smallest power of two at least `n`. -/
def next_power_of_two (n : Nat) : Nat := nextPow2Go n n 1

/-- A column record as held by the generator-era `ColumnSet` while padding:
its handle, kind and optional value.  (`ColumnSet` itself is not among the
sources; only this shape is exercised by `ConstraintSet::pad`.) -/
structure PadColumn where
  handle : Handle
  kind : EKind
  value : Option (List Fr)

instance : Inhabited PadColumn := ⟨⟨⟨[], []⟩, .Atomic, none⟩⟩

/-- The canonical exception column `binary/NOT`. -/
def binaryNot : Handle := ⟨"binary".data, "NOT".data⟩

/-- `Column::len`: the length of the value, when present. -/
def colLen (c : PadColumn) : Option Nat := c.value.map List.length

/-- The maximum filled-column length, as `pad` in `compute.rs` computes it
(`filter_map(|col| col.len()).max()`) and as the generator era names it
`ColumnSet::max_len`; 0 replaces the source's `unwrap` panic on a set with no
filled column. -/
def maxLen (cols : List PadColumn) : Nat := (cols.filterMap colLen).foldl Nat.max 0

/-- The padded length of the Full strategy: `(max_len + 1)` rounded up to the
next power of two. -/
def padTo (cols : List PadColumn) : Nat := next_power_of_two (maxLen cols + 1)

/-- The `xs.reverse(); xs.resize(pad_to, 0); xs.reverse()` idiom: extend (or
truncate) to `pad_to` entries by writing zeros at the front. -/
def zeroPad (padSize : Nat) (xs : List Fr) : List Fr :=
  ((xs.reverse).takeD padSize 0).reverse

/-- The `for x in xs.iter_mut().take(k) { *x = 255 }` fix-up of `binary/NOT`. -/
def overwrite255 (k : Nat) (xs : List Fr) : List Fr :=
  (xs.take k).map (fun _ => (255 : Fr)) ++ xs.drop k

/-- The `PaddingStrategy::Full` arm of `ConstraintSet::pad` from
`generator.rs`: compute the target length, zero-pad every filled column at the
front, then overwrite the first `pad_to − len(binary/NOT)` entries of
`binary/NOT` (length taken BEFORE padding) with 255.  The source `unwrap`s
that length, a panic when the column exists unfilled (`none` here); handles
are unique in a `ColumnSet` (module- and name-keyed maps), so rewriting every
matching column agrees with the source's single map entry. -/
def pad_full (cols : List PadColumn) : Option (List PadColumn) :=
  let pad_to := padTo cols
  let padded := cols.map (fun c => { c with value := c.value.map (zeroPad pad_to) })
  match cols.find? (fun c => c.handle == binaryNot) with
  | none => some padded
  | some c₀ =>
    match colLen c₀ with
    | none => none
    | some l =>
      some (padded.map (fun c =>
        if c.handle == binaryNot
        then { c with value := c.value.map (overwrite255 (pad_to - l)) }
        else c))

/-- A composite column whose defining expression evaluates to 1 on all-zero
dependencies, prefilled with a single 5. -/
def compositeOneCol : PadColumn :=
  ⟨⟨['m'], ['c']⟩, .Composite (Expression.Const 1 (some 1)), some [(5 : Fr)]⟩

/-- A two-column set exercising both the generic zero padding and the
`binary/NOT` exception. -/
def padWitnessCols : List PadColumn :=
  [ ⟨⟨['m'], ['a']⟩, .Atomic, some [(1 : Fr), 2, 3]⟩,
    ⟨binaryNot, .Atomic, some [(7 : Fr)]⟩ ]

/-- The magma of a componentwise join is the join of the magmas. -/
theorem magma_max (a b : Type') : (a.max b).magma = a.magma.max b.magma := by
  cases a <;> cases b <;> rfl

/-- The magma of a fold of joins is the fold of the magma joins. -/
theorem magma_foldl_max (args : List Type') (s : Type') :
    (args.foldl (fun a b => a.max b) s).magma
      = args.foldl (fun m t => m.max t.magma) s.magma := by
  induction args generalizing s with
  | nil => rfl
  | cons t rest ih =>
    simp only [List.foldl_cons, ih, magma_max]

/-- A fold of magma joins is `Boolean` exactly when the start and every element
are `Boolean`. -/
theorem foldl_magma_boolean (args : List Type') (m : Magma) :
    args.foldl (fun m t => m.max t.magma) m = .Boolean
      ↔ (m = .Boolean ∧ ∀ t ∈ args, t.magma = .Boolean) := by
  induction args generalizing m with
  | nil => simp
  | cons t rest ih =>
    simp only [List.foldl_cons, ih, List.mem_cons]
    constructor
    · rintro ⟨h₁, h₂⟩
      rcases m with _ | _ <;> rcases ht : t.magma with _ | _ <;>
        simp_all [Magma.max]
    · rintro ⟨h₁, h₂⟩
      refine ⟨?_, fun u hu => h₂ u (Or.inr hu)⟩
      have := h₂ t (Or.inl rfl)
      rw [h₁, this]
      rfl

/-- The scale rank of `ofRank r m` is positive whenever `r` is. -/
theorem scaleRank_ofRank_pos (r : Nat) (m : Magma) (h : 1 ≤ r) :
    1 ≤ (Type'.ofRank r m).scaleRank := by
  match r with
  | 0 => exact absurd h (by decide)
  | 1 => exact Nat.le_refl 1
  | 2 => show 1 ≤ 2; omega
  | (n+3) => show 1 ≤ 3; omega

/-- The scale rank of a join-fold starting at a value type is at least 1. -/
theorem foldl_max_rank_pos (args : List Type') (s : Type') (hs : 1 ≤ s.scaleRank) :
    1 ≤ (args.foldl (fun a b => a.max b) s).scaleRank := by
  induction args generalizing s with
  | nil => exact hs
  | cons t rest ih =>
    apply ih
    have h1 : s.scaleRank ≤ Nat.max s.scaleRank t.scaleRank := Nat.le_max_left _ _
    exact scaleRank_ofRank_pos _ _ (by omega)

/--
C3: for `+`, `-`, `neg`, `inv`, the computed magma of `Builtin::typing` is
`Integer` when every argument magma is `Boolean` AND the join of the argument
types is value-typed (`Scalar` or `Column`); in every other case it equals the
join of the argument magmas.  (The claim as frozen omits the value-typed side
condition; `typing` leaves a `List(Boolean)` join untouched.)
-/
theorem typing_arith_magma (b : Builtin)
    (hb : b = .Add ∨ b = .Sub ∨ b = .Neg ∨ b = .Inv) (args : List Type') :
    (typing b args).magma =
      if (args.foldl (fun a b => a.max b) Type'.INFIMUM).is_value = true
          ∧ ∀ t ∈ args, t.magma = .Boolean
      then .Integer
      else args.foldl (fun m t => m.max t.magma) .Boolean := by
  have harm : typing b args =
      match args.foldl (fun a b => a.max b) Type'.INFIMUM with
      | .Scalar .Boolean => .Scalar .Integer
      | .Column .Boolean => .Column .Integer
      | x => x := by
    rcases hb with rfl | rfl | rfl | rfl <;> rfl
  have hmag : (args.foldl (fun a b => a.max b) Type'.INFIMUM).magma
      = args.foldl (fun m t => m.max t.magma) .Boolean := by
    simpa [Type'.INFIMUM, Type'.magma] using
      magma_foldl_max args Type'.INFIMUM
  rw [harm]
  rcases hF : args.foldl (fun a b => a.max b) Type'.INFIMUM with _ | m | m | m
  · -- the fold starting at `Scalar(Boolean)` can never be `Void`
    exfalso
    have := foldl_max_rank_pos args Type'.INFIMUM (by rfl)
    rw [hF] at this
    simp [Type'.scaleRank] at this
  · cases m
    · have hbool : ∀ t ∈ args, t.magma = .Boolean := by
        have hm : (args.foldl (fun a b => a.max b) Type'.INFIMUM).magma = .Boolean := by
          rw [hF]; rfl
        rw [hmag] at hm
        exact (foldl_magma_boolean args .Boolean |>.mp hm).2
      rw [hF, if_pos ⟨rfl, hbool⟩]
      rfl
    · rw [hF]
      have hnc : ¬ ((Type'.Scalar Magma.Integer).is_value = true
          ∧ ∀ t ∈ args, t.magma = .Boolean) := by
        rintro ⟨-, hall⟩
        have hm := (foldl_magma_boolean args .Boolean).mpr ⟨rfl, hall⟩
        rw [← hmag, hF] at hm
        exact absurd hm (by decide)
      rw [if_neg hnc, ← hmag, hF]
  · cases m
    · have hbool : ∀ t ∈ args, t.magma = .Boolean := by
        have hm : (args.foldl (fun a b => a.max b) Type'.INFIMUM).magma = .Boolean := by
          rw [hF]; rfl
        rw [hmag] at hm
        exact (foldl_magma_boolean args .Boolean |>.mp hm).2
      rw [hF, if_pos ⟨rfl, hbool⟩]
      rfl
    · rw [hF]
      have hnc : ¬ ((Type'.Column Magma.Integer).is_value = true
          ∧ ∀ t ∈ args, t.magma = .Boolean) := by
        rintro ⟨-, hall⟩
        have hm := (foldl_magma_boolean args .Boolean).mpr ⟨rfl, hall⟩
        rw [← hmag, hF] at hm
        exact absurd hm (by decide)
      rw [if_neg hnc, ← hmag, hF]
  · rw [hF]
    have hnc : ¬ ((Type'.List m).is_value = true
        ∧ ∀ t ∈ args, t.magma = .Boolean) := by
      rintro ⟨hv, -⟩
      simp [Type'.is_value] at hv
    rw [if_neg hnc, ← hmag, hF]

/--
C3 counterexample: applying `+` to a single argument of type `List(Boolean)`
gives a result whose magma is `Boolean`, not `Integer`, although every
argument magma is `Boolean` — refuting the claim as frozen.
-/
theorem typing_arith_boolean_list_not_integer :
    (∀ t ∈ [Type'.List .Boolean], t.magma = .Boolean)
      ∧ (typing .Add [Type'.List .Boolean]).magma ≠ .Integer := by
  decide

/-- C3 witness: the promotion theorem applied to `(+ )` on `[Scalar(Boolean)]`. -/
theorem typing_arith_magma_witness :
    (Builtin.Add = .Add ∨ Builtin.Add = .Sub ∨ Builtin.Add = .Neg ∨ Builtin.Add = .Inv)
    ∧ (typing .Add [Type'.Scalar .Boolean]).magma =
      if (([Type'.Scalar .Boolean].foldl (fun a b => a.max b) Type'.INFIMUM).is_value = true
          ∧ ∀ t ∈ [Type'.Scalar .Boolean], t.magma = .Boolean)
      then .Integer
      else [Type'.Scalar .Boolean].foldl (fun m t => m.max t.magma) .Boolean :=
  ⟨Or.inl rfl, typing_arith_magma .Add (Or.inl rfl) [Type'.Scalar .Boolean]⟩

/-- A replacement step is the identity on strings avoiding its pattern. -/
theorem replaceChar_id (pat : Char) (rep : List Char) (s : List Char)
    (h : ∀ c ∈ s, c ≠ pat) : replaceChar pat rep s = s := by
  induction s with
  | nil => rfl
  | cons c rest ih =>
    have hc : c ≠ pat := h c (List.mem_cons_self c rest)
    simp only [replaceChar, List.flatMap_cons, if_neg hc]
    have := ih (fun d hd => h d (List.mem_cons_of_mem c hd))
    simp only [replaceChar] at this
    rw [this]
    rfl

/-- The non-ASCII replacement step is the identity on ASCII strings. -/
theorem replaceNonAscii_id (s : List Char) (h : ∀ c ∈ s, isAsciiChar c = true) :
    replaceNonAscii s = s := by
  induction s with
  | nil => rfl
  | cons c rest ih =>
    have hc := h c (List.mem_cons_self c rest)
    simp only [replaceNonAscii, List.map_cons, if_pos hc]
    have := ih (fun d hd => h d (List.mem_cons_of_mem c hd))
    simp only [replaceNonAscii] at this
    rw [this]

/-- `purify` fixes strings made of safe characters. -/
theorem purify_id (s : List Char) (h : ∀ c ∈ s, charOk c) : purify s = s := by
  have hno : ∀ p ∈ specialChars, ∀ c ∈ s, c ≠ p := by
    intro p hp c hc he
    exact absurd (he ▸ hp) (h c hc).2.1
  have hascii : ∀ c ∈ s, isAsciiChar c = true := fun c hc => (h c hc).1
  unfold purify
  rw [replaceChar_id _ _ _ (hno '(' (by decide)),
    replaceChar_id _ _ _ (hno ')' (by decide)),
    replaceChar_id _ _ _ (hno lbraceChar (by decide)),
    replaceChar_id _ _ _ (hno rbraceChar (by decide)),
    replaceChar_id _ _ _ (hno '[' (by decide)),
    replaceChar_id _ _ _ (hno ']' (by decide)),
    replaceChar_id _ _ _ (hno '<' (by decide)),
    replaceChar_id _ _ _ (hno '>' (by decide)),
    replaceChar_id _ _ _ (hno ':' (by decide)),
    replaceChar_id _ _ _ (hno '%' (by decide)),
    replaceChar_id _ _ _ (hno '.' (by decide)),
    replaceChar_id _ _ _ (hno '-' (by decide)),
    replaceChar_id _ _ _ (hno '*' (by decide)),
    replaceChar_id _ _ _ (hno '+' (by decide)),
    replaceChar_id _ _ _ (hno '/' (by decide)),
    replaceNonAscii_id _ hascii]

/-- Taking the underscore-free head of a separated concatenation recovers the
left part. -/
theorem takeWhile_append_sep (m rest : List Char) (hm : '_' ∉ m) :
    (m ++ '_' :: rest).takeWhile (fun c => !(c == '_')) = m := by
  induction m with
  | nil => simp [List.takeWhile]
  | cons c cs ih =>
    have hc : c ≠ '_' := fun he => hm (he ▸ List.mem_cons_self c cs)
    have hcs : '_' ∉ cs := fun hin => hm (List.mem_cons_of_mem c hin)
    simp only [List.cons_append, List.takeWhile_cons]
    rw [if_pos (by simp [hc])]
    rw [ih hcs]

/-- Splitting a separated concatenation of underscore-free parts is unambiguous. -/
theorem append_sep_inj (m₁ n₁ m₂ n₂ : List Char)
    (hm₁ : '_' ∉ m₁) (hm₂ : '_' ∉ m₂)
    (heq : m₁ ++ '_' :: '_' :: n₁ = m₂ ++ '_' :: '_' :: n₂) :
    m₁ = m₂ ∧ n₁ = n₂ := by
  have htw : m₁ = m₂ := by
    have h₁ := takeWhile_append_sep m₁ ('_' :: n₁) hm₁
    have h₂ := takeWhile_append_sep m₂ ('_' :: n₂) hm₂
    rw [← h₁, ← h₂, heq]
  refine ⟨htw, ?_⟩
  subst htw
  simpa using List.append_cancel_left heq

/--
C6 (amended): `Handle::mangle` is injective on handles whose module and name
consist of ASCII characters untouched by `purify` and contain no underscore.
(The frozen claim asserts injectivity on all distinct handles, which fails:
`purify` collapses distinct spellings, e.g. `a-b` and `asubb`.)
-/
theorem mangle_inj (h₁ h₂ : Handle)
    (h1m : ∀ c ∈ h₁.module, charOk c) (h1n : ∀ c ∈ h₁.name, charOk c)
    (h2m : ∀ c ∈ h₂.module, charOk c) (h2n : ∀ c ∈ h₂.name, charOk c)
    (heq : h₁.mangle = h₂.mangle) : h₁ = h₂ := by
  have p1m := purify_id _ h1m
  have p1n := purify_id _ h1n
  have p2m := purify_id _ h2m
  have p2n := purify_id _ h2n
  have u1m : '_' ∉ h₁.module := fun hin => (h1m _ hin).2.2 rfl
  have u1n : '_' ∉ h₁.name := fun hin => (h1n _ hin).2.2 rfl
  have u2m : '_' ∉ h₂.module := fun hin => (h2m _ hin).2.2 rfl
  have u2n : '_' ∉ h₂.name := fun hin => (h2n _ hin).2.2 rfl
  unfold Handle.mangle at heq
  rw [p1m, p1n, p2m, p2n] at heq
  by_cases e1 : h₁.module = [] <;> by_cases e2 : h₂.module = []
  · rw [if_pos e1, if_pos e2, e1, e2] at heq
    simp only [List.nil_append] at heq
    cases h₁; cases h₂
    simp_all
  · rw [if_pos e1, if_neg e2, e1] at heq
    simp only [List.nil_append] at heq
    exfalso
    apply u1n
    rw [heq]
    exact List.mem_append_left _ (List.mem_append_right _ (List.mem_cons_self _ _))
  · rw [if_neg e1, if_pos e2, e2] at heq
    simp only [List.nil_append] at heq
    exfalso
    apply u2n
    rw [← heq]
    exact List.mem_append_left _ (List.mem_append_right _ (List.mem_cons_self _ _))
  · rw [if_neg e1, if_neg e2] at heq
    have := append_sep_inj _ _ _ _ u1m u2m
      (by simpa [moduleSeparator, List.append_assoc] using heq)
    cases h₁; cases h₂
    simp_all

/--
C6 counterexample: two distinct handles with equal mangles — `purify` turns
`a-b` into `asubb`, so `m.a-b` and `m.asubb` collide.
-/
theorem mangle_not_injective :
    Handle.mangle ⟨['m'], ['a', '-', 'b']⟩ = Handle.mangle ⟨['m'], ['a', 's', 'u', 'b', 'b']⟩
      ∧ (⟨['m'], ['a', '-', 'b']⟩ : Handle) ≠ ⟨['m'], ['a', 's', 'u', 'b', 'b']⟩ := by
  constructor
  · rfl
  · decide

/-- C6 witness: the amended injectivity applied to two concrete safe handles. -/
theorem mangle_inj_witness :
    (∀ c ∈ (⟨['m'], ['a']⟩ : Handle).module, charOk c)
      ∧ ((⟨['m'], ['a']⟩ : Handle) = ⟨['m'], ['a']⟩) :=
  ⟨by decide,
    mangle_inj ⟨['m'], ['a']⟩ ⟨['m'], ['a']⟩ (by decide) (by decide) (by decide) (by decide) rfl⟩

/-- Folding the warning log over any index list keeps `Ok` and appends exactly
the errors of the attempted computations. -/
theorem compute_all_foldl {E : Type} (compute : Nat → Except E Unit)
    (l : List Nat) (w : List E) :
    l.foldl
      (fun acc i =>
        match compute i with
        | .error e => (acc.1, acc.2 ++ [e])
        | .ok _ => acc)
      ((Except.ok () : Except E Unit), w)
    = ((Except.ok () : Except E Unit), w ++ l.filterMap (fun i => errOf (compute i))) := by
  induction l generalizing w with
  | nil => simp
  | cons i rest ih =>
    rcases hc : compute i with e | u <;>
      simp [List.foldl_cons, List.filterMap_cons, hc, errOf, ih]

/--
C9: `compute_all` never aborts because one computation fails: for every
computation table it returns `Ok`, and the warning log records exactly the
errors of all attempted computations — every index in range is attempted even
when earlier ones fail.
-/
theorem compute_all_total {E : Type} (n : Nat) (compute : Nat → Except E Unit) :
    (compute_all n compute).1 = .ok ()
      ∧ (compute_all n compute).2
          = (List.range n).filterMap (fun i => errOf (compute i)) := by
  unfold compute_all
  rw [compute_all_foldl]
  exact ⟨rfl, by simp⟩

/-- Cyclic function-alias resolution consumes any budget without returning:
each hop restarts `_resolve_function` with a fresh visited set. -/
theorem resolve_function_fuel_cyclic (fuel : Nat) :
    resolve_function_fuel fuel cyclicScope aName [] = none
      ∧ resolve_function_fuel fuel cyclicScope bName [] = none := by
  induction fuel with
  | zero => exact ⟨rfl, rfl⟩
  | succ n ih => exact ⟨ih.2, ih.1⟩

/--
C7: symbol-alias cycles are caught — `_resolve_symbol` threads its visited set
through alias hops, so resolving `a` or `b` in a scope with aliases
`a → b → a` terminates with a circular-definitions error (the resolver is a
total function here, so termination holds by construction).  Function-alias
cycles are NOT caught: `_resolve_function` follows an alias by calling the
public `resolve_function`, which passes a fresh `HashSet::new()`, so the same
cycle recurses forever — modelled by the fuelled variant never returning for
any budget.
-/
theorem resolve_cycle_behaviour :
    resolve_symbol cyclicScope aName = .error (.circular aName)
    ∧ resolve_symbol cyclicScope bName = .error (.circular bName)
    ∧ ∀ fuel, resolve_function_fuel fuel cyclicScope aName [] = none := by
  refine ⟨?_, ?_, fun fuel => (resolve_function_fuel_cyclic fuel).1⟩
  · unfold resolve_symbol
    rw [_resolve_symbol.eq_def]
    simp +decide [cyclicScope, STree.symbols, lookupS, aName, bName, _resolve_symbol.eq_def]
  · unfold resolve_symbol
    rw [_resolve_symbol.eq_def]
    simp +decide [cyclicScope, STree.symbols, lookupS, aName, bName, _resolve_symbol.eq_def]

/-- Unfolding step: a visited name reports a circular definition. -/
theorem resolve_step_circular (t : STree) (name : List Char) (ax : List (List Char))
    (abs pure : Bool) (hmem : name ∈ ax) :
    _resolve_symbol t name ax abs pure = .error (.circular name) := by
  rw [_resolve_symbol.eq_def, dif_pos hmem]

/-- Unfolding step: a locally bound alias is followed with the visited set kept. -/
theorem resolve_step_alias (t : STree) (name target : List Char) (ax : List (List Char))
    (abs pure : Bool) (hmem : name ∉ ax)
    (hsym : lookupS t.symbols name = some (.Alias target)) :
    _resolve_symbol t name ax abs pure
      = _resolve_symbol t target (name :: ax) abs pure := by
  rw [_resolve_symbol.eq_def, dif_neg hmem]
  split
  · rename_i tgt heq
    rw [hsym] at heq
    injection heq with heq
    injection heq with heq
    rw [heq]
  · rename_i exp used heq
    rw [hsym] at heq
    exact absurd heq (by simp)
  · rename_i heq
    rw [hsym] at heq
    exact absurd heq (by simp)

/-- Unfolding step: a locally bound `Final` is returned, unless pure mode
rejects a non-constant. -/
theorem resolve_step_final (t : STree) (name : List Char) (ax : List (List Char))
    (abs pure : Bool) (exp : Node) (used : Bool) (hmem : name ∉ ax)
    (hsym : lookupS t.symbols name = some (.Final exp used)) :
    _resolve_symbol t name ax abs pure
      = if pure && !exp._e.isConst then .error (.impureUse name) else .ok exp := by
  rw [_resolve_symbol.eq_def, dif_neg hmem]
  split
  · rename_i tgt heq
    rw [hsym] at heq
    exact absurd heq (by simp)
  · rename_i exp₁ used₁ heq
    rw [hsym] at heq
    injection heq with heq
    cases heq
    rfl
  · rename_i heq
    rw [hsym] at heq
    exact absurd heq (by simp)

/-- Unfolding step: on a local miss the search climbs to the parent with a
fresh visited set, switching to pure mode when the current scope is closed. -/
theorem resolve_step_parent (t p : STree) (name : List Char) (ax : List (List Char))
    (pure : Bool) (hmem : name ∉ ax)
    (hsym : lookupS t.symbols name = none) (hpar : t.parent = some p) :
    _resolve_symbol t name ax false pure
      = _resolve_symbol p name [] false (t.closed || pure) := by
  rw [_resolve_symbol.eq_def, dif_neg hmem]
  split
  · rename_i tgt heq
    rw [hsym] at heq
    exact absurd heq (by simp)
  · rename_i exp₁ used₁ heq
    rw [hsym] at heq
    exact absurd heq (by simp)
  · rw [if_neg (by simp)]
    split
    · rename_i q heq
      rw [hpar] at heq
      injection heq with heq
      rw [heq]
    · rename_i heq
      rw [hpar] at heq
      exact absurd heq (by simp)

/-- Unfolding step: a local miss under an absolute path reports an unknown
symbol without climbing. -/
theorem resolve_step_unknown_abs (t : STree) (name : List Char) (ax : List (List Char))
    (pure : Bool) (hmem : name ∉ ax) (hsym : lookupS t.symbols name = none) :
    _resolve_symbol t name ax true pure = .error (.unknownSymbol name t.sname) := by
  rw [_resolve_symbol.eq_def, dif_neg hmem]
  split
  · rename_i tgt heq
    rw [hsym] at heq
    exact absurd heq (by simp)
  · rename_i exp₁ used₁ heq
    rw [hsym] at heq
    exact absurd heq (by simp)
  · rw [if_pos rfl]

/-- Unfolding step: a local miss at the root (no parent) reports an unknown
symbol. -/
theorem resolve_step_unknown_root (t : STree) (name : List Char) (ax : List (List Char))
    (pure : Bool) (hmem : name ∉ ax) (hsym : lookupS t.symbols name = none)
    (hpar : t.parent = none) :
    _resolve_symbol t name ax false pure = .error (.unknownSymbol name t.sname) := by
  rw [_resolve_symbol.eq_def, dif_neg hmem]
  split
  · rename_i tgt heq
    rw [hsym] at heq
    exact absurd heq (by simp)
  · rename_i exp₁ used₁ heq
    rw [hsym] at heq
    exact absurd heq (by simp)
  · rw [if_neg (by simp)]
    split
    · rename_i q heq
      rw [hpar] at heq
      exact absurd heq (by simp)
    · rfl

/-- In pure mode, any successful resolution yields a `Const`: the pure flag is
kept through alias hops and only ever strengthened on the climb to the parent,
and a pure-mode `Final` whose expression is not a `Const` is rejected. -/
theorem resolve_pure_gives_const (t : STree) (name : List Char) (ax : List (List Char))
    (abs pure : Bool) (node : Node) (hp : pure = true)
    (h : _resolve_symbol t name ax abs pure = .ok node) : node._e.isConst = true := by
  induction t, name, ax, abs, pure using _resolve_symbol.induct generalizing node with
  | case1 t name ax abs pure hmem =>
    rw [resolve_step_circular t name ax abs pure hmem] at h
    exact Except.noConfusion h
  | case2 t name ax abs pure hmem target hsym ih =>
    rw [resolve_step_alias t name target ax abs pure hmem hsym] at h
    exact ih node hp h
  | case3 t name ax abs pure hmem exp used hsym hb =>
    rw [resolve_step_final t name ax abs pure exp used hmem hsym, if_pos hb] at h
    exact Except.noConfusion h
  | case4 t name ax abs pure hmem exp used hsym hb =>
    rw [resolve_step_final t name ax abs pure exp used hmem hsym, if_neg hb] at h
    subst hp
    simp only [Bool.true_and, Bool.not_eq_true', Bool.not_eq_false] at hb
    cases h
    exact hb
  | case5 t name ax pure hmem hsym =>
    rw [resolve_step_unknown_abs t name ax pure hmem hsym] at h
    exact Except.noConfusion h
  | case6 t name ax abs pure hmem hsym habs p hpar ih =>
    rw [show abs = false from by simpa using habs] at h
    rw [resolve_step_parent t p name ax pure hmem hsym hpar] at h
    exact ih node (by rw [hp, Bool.or_true]) h
  | case7 t name ax abs pure hmem hsym habs hpar =>
    rw [show abs = false from by simpa using habs] at h
    rw [resolve_step_unknown_root t name ax pure hmem hsym hpar] at h
    exact Except.noConfusion h

/--
C8 (amended): crossing a closed scope boundary switches resolution to pure
mode, and a pure-mode resolution can only succeed on a `Const`: (1) whenever
`_resolve_symbol` runs in pure mode, a successful result is a `Const`; (2) in
particular, inside a closed scope, resolving a name that is NOT locally bound
and whose `Final` in the parent is not a `Const` fails with the
impure-use-in-pure-context error.  (The frozen claim omits "not locally
bound": a non-`Const` symbol bound in the closed scope itself resolves before
pure mode is entered.)
-/
theorem resolve_symbol_pure_context :
    (∀ (t : STree) (name : List Char) (ax : List (List Char)) (abs : Bool) (node : Node),
        _resolve_symbol t name ax abs true = .ok node → node._e.isConst = true)
    ∧ (∀ (t p : STree) (name : List Char) (node : Node) (used : Bool),
        t.closed = true → lookupS t.symbols name = none → t.parent = some p →
        lookupS p.symbols name = some (.Final node used) → node._e.isConst = false →
        resolve_symbol t name = .error (.impureUse name)) := by
  constructor
  · intro t name ax abs node h
    exact resolve_pure_gives_const t name ax abs true node rfl h
  · intro t p name node used hc hl hpar hfind hnc
    unfold resolve_symbol
    rw [resolve_step_parent t p name [] false (by simp) hl hpar]
    rw [hc, Bool.true_or]
    rw [resolve_step_final p name [] false true node used (by simp) hfind]
    rw [if_pos (by rw [hnc]; rfl)]

/--
C8 counterexample: inside a closed scope, a locally bound name whose `Final`
is a column reference (not a `Const`) resolves successfully — the claim as
frozen says such a resolution must fail.
-/
theorem resolve_symbol_closed_local_ok :
    localClosedScope.closed = true
    ∧ colNode._e.isConst = false
    ∧ resolve_symbol localClosedScope xName = .ok colNode := by
  refine ⟨rfl, rfl, ?_⟩
  unfold resolve_symbol
  rw [resolve_step_final localClosedScope xName [] false false colNode false (by simp) rfl]
  rfl

/-- C8 witness: the amended statement applied to the concrete closed scope:
resolving `y` from the closed child fails with the impure-use error. -/
theorem resolve_symbol_pure_context_witness :
    closedChildScope.closed = true
    ∧ resolve_symbol closedChildScope yName = .error (.impureUse yName) :=
  ⟨rfl, resolve_symbol_pure_context.2 closedChildScope parentWithColumn yName colNode false
    rfl rfl rfl rfl rfl⟩

/-- Unfolding step for `_edit_symbol`: a visited name reports a circular
definition. -/
theorem edit_step_circular (t : STree) (name : List Char) (f : Expression → Expression)
    (ax : List (List Char)) (hmem : name ∈ ax) :
    _edit_symbol t name f ax = .error (.circular name) := by
  rw [_edit_symbol.eq_def, dif_pos hmem]

/-- Unfolding step for `_edit_symbol`: on a locally bound alias it recurses on
the SAME name with that name newly recorded as visited. -/
theorem edit_step_alias (t : STree) (name target : List Char) (f : Expression → Expression)
    (ax : List (List Char)) (hmem : name ∉ ax)
    (hsym : lookupS t.symbols name = some (.Alias target)) :
    _edit_symbol t name f ax = _edit_symbol t name f (name :: ax) := by
  rw [_edit_symbol.eq_def, dif_neg hmem]
  split
  · rfl
  · rename_i exp₁ used₁ heq
    rw [hsym] at heq
    exact absurd heq (by simp)
  · rename_i heq
    rw [hsym] at heq
    exact absurd heq (by simp)

/--
C10: `edit_symbol` on a name locally bound to an `Alias` never reaches the
alias target: the implementation recurses on the same name, which is already
in the visited set, so it returns a circular-definitions error (and therefore
no symbol is modified — the error carries no updated table).  Unlike
`resolve_symbol`, `edit_symbol` does not follow aliases.
-/
theorem edit_symbol_alias_circular (t : STree) (name target : List Char)
    (f : Expression → Expression)
    (h : lookupS t.symbols name = some (.Alias target)) :
    edit_symbol t name f = .error (.circular name) := by
  unfold edit_symbol
  rw [edit_step_alias t name target f [] (by simp) h]
  exact edit_step_circular t name f [name] (by simp)

/-- C10 witness: editing the aliased `x` in the concrete scope fails with the
circular-definitions error, although `y` exists and resolves. -/
theorem edit_symbol_alias_circular_witness :
    lookupS aliasScope.symbols xName = some (.Alias yName)
    ∧ edit_symbol aliasScope xName (fun e => e) = .error (.circular xName) :=
  ⟨rfl, edit_symbol_alias_circular aliasScope xName yName (fun e => e) rfl⟩

/--
C4 (amended): when both arguments of `eq` are boolean-typed, the reducer
lowers `(eq x y)` to `Sub(1, Mul(Add(Sub(1,y),x), Add(Sub(1,x),y)))` — not to
`Mul(Sub(x,y), Sub(x,y))` — typed by `call_t` (which yields an Integer-magma
type, not Boolean); evaluating the lowered expression on a row where `x` and
`y` evaluate to elements of `(0,1)` yields `0` when they are equal and `1`
when they differ.
-/
theorem applyEq_bool_lowering (x y : Expression) (tx ty : Type')
    (hx : tx.is_bool = true) (hy : ty.is_bool = true)
    (i : Int) (get : Handle → Int → Bool → Option Fr) (wrap : Bool) (a b : Fr)
    (ha : a = 0 ∨ a = 1) (hb : b = 0 ∨ b = 1)
    (hxa : evalE x i get wrap = some a) (hyb : evalE y i get wrap = some b) :
    applyEq x tx y ty
      = Builtin.Sub.call_t [Expression.one,
          Builtin.Mul.call [
            Builtin.Add.call [Builtin.Sub.call [Expression.one, y], x],
            Builtin.Add.call [Builtin.Sub.call [Expression.one, x], y]]]
    ∧ evalE (applyEq x tx y ty).1 i get wrap = some (if a = b then 0 else 1) := by
  have hae : applyEq x tx y ty
      = Builtin.Sub.call_t [Expression.one,
          Builtin.Mul.call [
            Builtin.Add.call [Builtin.Sub.call [Expression.one, y], x],
            Builtin.Add.call [Builtin.Sub.call [Expression.one, x], y]]] := by
    unfold applyEq
    rw [hx, hy]
    rfl
  refine ⟨hae, ?_⟩
  rw [hae]
  simp only [Builtin.call_t, Builtin.call]
  simp only [evalE, evalFold, Expression.one, hxa, hyb, Option.bind_some]
  rcases ha with rfl | rfl <;> rcases hb with rfl | rfl <;> norm_num <;>
    rw [if_neg (show ¬ P = 1 by decide)]

/--
C4 counterexample: on two boolean column nodes the lowering of `eq` is NOT
`Mul(Sub(x,y), Sub(x,y))` (the outermost builtin is `Sub`, not `Mul`), and its
computed type tag is not boolean (its magma is `Integer`, by the `+`/`-`
promotion inside `call_t`).
-/
theorem applyEq_not_claimed_shape :
    (applyEq xCol (Type'.Column .Boolean) yCol (Type'.Column .Boolean)).1
      ≠ Builtin.Mul.call [Builtin.Sub.call [xCol, yCol], Builtin.Sub.call [xCol, yCol]]
    ∧ ((applyEq xCol (Type'.Column .Boolean) yCol (Type'.Column .Boolean)).2).is_bool
      = false := by
  constructor
  · intro h
    injection h with h1 h2
    exact Builtin.noConfusion h1
  · rfl

/-- C4 witness: the amended lowering theorem applied to the concrete boolean
columns on the row `(x, y) = (1, 0)`, where the lowered expression evaluates
to `1`. -/
theorem applyEq_bool_lowering_witness :
    (Type'.Column Magma.Boolean).is_bool = true
    ∧ evalE xCol 0 getXY true = some 1
    ∧ evalE yCol 0 getXY true = some 0
    ∧ evalE (applyEq xCol (Type'.Column .Boolean) yCol (Type'.Column .Boolean)).1 0 getXY true
        = some (if (1 : Fr) = 0 then 0 else 1) := by
  have hxa : evalE xCol 0 getXY true = some 1 := by
    simp +decide [evalE, xCol, getXY]
  have hyb : evalE yCol 0 getXY true = some 0 := by
    simp +decide [evalE, yCol, getXY]
  exact ⟨rfl, hxa, hyb,
    (applyEq_bool_lowering xCol yCol (Type'.Column .Boolean) (Type'.Column .Boolean)
      rfl rfl 0 getXY true 1 0 (Or.inr rfl) (Or.inl rfl) hxa hyb).2⟩

/-- On a list with adjacent-equal entries, every entry equals the head. -/
theorem windowsAllEq_head (a : Nat) (l : List Nat)
    (h : windowsAllEq (a :: l) = true) : ∀ x ∈ a :: l, x = a := by
  induction l generalizing a with
  | nil =>
    intro x hx
    simpa using hx
  | cons b rest ih =>
    simp only [windowsAllEq, Bool.and_eq_true, beq_iff_eq] at h
    intro x hx
    rcases List.mem_cons.mp hx with rfl | hx'
    · rfl
    · exact (ih b h.2 x hx').trans h.1.symm

/-- A constant-valued list passes the adjacent-equality check. -/
theorem windowsAllEq_const (l : List Nat) (v : Nat) (h : ∀ x ∈ l, x = v) :
    windowsAllEq l = true := by
  induction l with
  | nil => rfl
  | cons a rest ih =>
    match rest, ih with
    | [], _ => rfl
    | b :: rest', ih =>
      simp only [windowsAllEq, Bool.and_eq_true, beq_iff_eq]
      refine ⟨?_, ih (fun x hx => h x (List.mem_cons_of_mem a hx))⟩
      rw [h a (List.mem_cons_self _ _), h b (List.mem_cons_of_mem a (List.mem_cons_self _ _))]

/--
C2: for a nonempty family of source columns of equal length `len`,
`compute_interleaved` returns exactly `len × count` rows where row
`k = i·count + j` holds row `i` of the `j`-th source column; and when the
lengths are not all equal it fails with the incoherent-lengths error.
-/
theorem compute_interleaved_spec (froms : List (List Fr)) (hne : froms ≠ []) :
    (∀ len, (∀ f ∈ froms, f.length = len) →
      ∃ v, compute_interleaved froms = some (.ok v)
        ∧ v.length = len * froms.length
        ∧ ∀ i j, i < len → j < froms.length →
            v.getD (i * froms.length + j) 0 = (froms.getD j []).getD i 0)
    ∧ ((¬ ∃ len, ∀ f ∈ froms, f.length = len) →
        compute_interleaved froms = some (.error .incoherentLengths)) := by
  cases froms with
  | nil => exact absurd rfl hne
  | cons f0 rest =>
    constructor
    · intro len hlen
      have hlen0 : f0.length = len := hlen f0 (List.mem_cons_self _ _)
      have hwin : windowsAllEq ((f0 :: rest).map List.length) = true := by
        apply windowsAllEq_const _ len
        intro x hx
        rcases List.mem_map.mp hx with ⟨f, hfm, rfl⟩
        exact hlen f hfm
      unfold compute_interleaved
      rw [hwin]
      rw [if_neg (by simp)]
      refine ⟨_, rfl, ?_, ?_⟩
      · simp [hlen0]
      · intro i j hi hj
        have hcount : (0:Nat) < (f0 :: rest).length := Nat.succ_pos _
        have hk : i * (f0 :: rest).length + j < f0.length * (f0 :: rest).length := by
          have h1 : (i + 1) * (f0 :: rest).length = i * (f0 :: rest).length + (f0 :: rest).length := by
            ring
          have h2 : (i + 1) * (f0 :: rest).length ≤ len * (f0 :: rest).length :=
            Nat.mul_le_mul_right _ (by omega)
          rw [hlen0]
          omega
        rw [List.getD_eq_getElem?_getD, List.getElem?_map, List.getElem?_range hk]
        have hmod : (i * (f0 :: rest).length + j) % (f0 :: rest).length = j := by
          rw [Nat.mul_comm i ((f0 :: rest).length), Nat.mul_add_mod, Nat.mod_eq_of_lt hj]
        have hdiv : (i * (f0 :: rest).length + j) / (f0 :: rest).length = i := by
          rw [Nat.mul_comm i ((f0 :: rest).length), Nat.mul_add_div hcount,
            Nat.div_eq_of_lt hj]
          omega
        simp only [Option.map_some', Option.getD_some]
        rw [hmod, hdiv]
    · intro hnl
      rcases hb : windowsAllEq ((f0 :: rest).map List.length) with _ | _
      · unfold compute_interleaved
        rw [hb]
        rfl
      · exfalso
        apply hnl
        have hall := windowsAllEq_head f0.length (rest.map List.length) (by simpa using hb)
        refine ⟨f0.length, ?_⟩
        intro f hfm
        rcases List.mem_cons.mp hfm with rfl | hfm'
        · rfl
        · exact hall f.length
            (List.mem_cons_of_mem _ (List.mem_map_of_mem List.length hfm'))

/-- C2 witness: interleaving `[1,2]` and `[3,4]` gives `[1,3,2,4]` — the
theorem applied at that concrete family. -/
theorem compute_interleaved_spec_witness :
    ([[ (1:Fr), 2], [3, 4]] ≠ ([] : List (List Fr)))
    ∧ ((∀ len, (∀ f ∈ [[ (1:Fr), 2], [3, 4]], f.length = len) →
        ∃ v, compute_interleaved [[ (1:Fr), 2], [3, 4]] = some (.ok v)
          ∧ v.length = len * ([[ (1:Fr), 2], [3, 4]] : List (List Fr)).length
          ∧ ∀ i j, i < len → j < ([[ (1:Fr), 2], [3, 4]] : List (List Fr)).length →
              v.getD (i * ([[ (1:Fr), 2], [3, 4]] : List (List Fr)).length + j) 0
                = (([[ (1:Fr), 2], [3, 4]] : List (List Fr)).getD j []).getD i 0)
      ∧ ((¬ ∃ len, ∀ f ∈ [[ (1:Fr), 2], [3, 4]], f.length = len) →
          compute_interleaved [[ (1:Fr), 2], [3, 4]] = some (.error .incoherentLengths))) :=
  ⟨by simp, compute_interleaved_spec [[ (1:Fr), 2], [3, 4]] (by simp)⟩

/-- Swapping the compared elements swaps the comparison. -/
theorem frCompare_swap (a b : Fr) : frCompare b a = (frCompare a b).swap := by
  unfold frCompare
  rw [Nat.compare_swap]

/-- Swapping the compared rows swaps the lexicographic comparison. -/
theorem lexCmp_swap (froms : List (List Fr)) (i j : Nat) :
    lexCmp froms j i = (lexCmp froms i j).swap := by
  induction froms with
  | nil => rfl
  | cons f rest ih =>
    simp only [lexCmp]
    rw [frCompare_swap (f.getD i 0) (f.getD j 0)]
    rcases frCompare (f.getD i 0) (f.getD j 0) with _ | _ | _
    · rfl
    · exact ih
    · rfl

/-- The non-`Greater` relation on rows is transitive. -/
theorem lexCmp_trans_ne_gt (froms : List (List Fr)) (i j k : Nat)
    (hij : lexCmp froms i j ≠ .gt) (hjk : lexCmp froms j k ≠ .gt) :
    lexCmp froms i k ≠ .gt := by
  induction froms with
  | nil => simp [lexCmp]
  | cons f rest ih =>
    simp only [lexCmp] at hij hjk ⊢
    rcases h1 : frCompare (f.getD i 0) (f.getD j 0) with _ | _ | _ <;>
      rcases h2 : frCompare (f.getD j 0) (f.getD k 0) with _ | _ | _ <;>
      rw [h1] at hij <;> rw [h2] at hjk
    · have h3 : frCompare (f.getD i 0) (f.getD k 0) = .lt :=
        Nat.compare_eq_lt.mpr
          (Nat.lt_trans (Nat.compare_eq_lt.mp h1) (Nat.compare_eq_lt.mp h2))
      rw [h3]
      simp
    · have h3 : frCompare (f.getD i 0) (f.getD k 0) = .lt := by
        have he := Nat.compare_eq_eq.mp h2
        exact Nat.compare_eq_lt.mpr (he ▸ Nat.compare_eq_lt.mp h1)
      rw [h3]
      simp
    · exact absurd rfl hjk
    · have h3 : frCompare (f.getD i 0) (f.getD k 0) = .lt := by
        have he := Nat.compare_eq_eq.mp h1
        exact Nat.compare_eq_lt.mpr (he ▸ Nat.compare_eq_lt.mp h2)
      rw [h3]
      simp
    · have h3 : frCompare (f.getD i 0) (f.getD k 0) = .eq := by
        have he1 := Nat.compare_eq_eq.mp h1
        have he2 := Nat.compare_eq_eq.mp h2
        exact Nat.compare_eq_eq.mpr (he1.trans he2)
      rw [h3]
      exact ih hij hjk
    · exact absurd rfl hjk
    · exact absurd rfl hij
    · exact absurd rfl hij
    · exact absurd rfl hij

/-- `sortLe` in propositional form. -/
theorem sortLe_eq_true_iff (froms : List (List Fr)) (i j : Nat) :
    sortLe froms i j = true ↔ lexCmp froms i j ≠ .gt := by
  unfold sortLe
  rcases lexCmp froms i j with _ | _ | _ <;> decide

/-- The `sort_by` ordering is transitive. -/
theorem sortLe_trans (froms : List (List Fr)) (a b c : Nat)
    (hab : sortLe froms a b = true) (hbc : sortLe froms b c = true) :
    sortLe froms a c = true := by
  rw [sortLe_eq_true_iff] at *
  exact lexCmp_trans_ne_gt froms a b c hab hbc

/-- The `sort_by` ordering is total. -/
theorem sortLe_total (froms : List (List Fr)) (a b : Nat) :
    (sortLe froms a b || sortLe froms b a) = true := by
  rcases h : lexCmp froms a b with _ | _ | _
  · simp only [sortLe, h, Bool.or_eq_true]
    left
    decide
  · simp only [sortLe, h, Bool.or_eq_true]
    left
    decide
  · have h2 : lexCmp froms b a = .lt := by
      rw [lexCmp_swap, h]
      rfl
    simp only [sortLe, h2, Bool.or_eq_true]
    right
    decide

/-- Reading a list through the index range of its own length is the identity. -/
theorem map_getD_range (l : List Fr) :
    (List.range l.length).map (fun i => l.getD i 0) = l := by
  apply List.ext_getElem
  · simp
  · intro n h1 h2
    simp only [List.getElem_map, List.getElem_range]
    rw [List.getD_eq_getElem?_getD, List.getElem?_eq_getElem h2]
    rfl

/-- The row comparator agrees with the lexicographic comparison of the
materialised row tuples. -/
theorem lexCmpRows_rowOf (froms : List (List Fr)) (i j : Nat) :
    lexCmpRows (rowOf froms i) (rowOf froms j) = lexCmp froms i j := by
  induction froms with
  | nil => rfl
  | cons f rest ih =>
    simp only [rowOf, List.map_cons, lexCmpRows, lexCmp]
    rcases frCompare (f.getD i 0) (f.getD j 0) with _ | _ | _
    · rfl
    · exact ih
    · rfl

/--
C1: for a nonempty family of source columns of equal length `len`,
`compute_sorted` writes into each target exactly the values of the matching
source column read through ONE common permutation `π` of the row indices;
`π` is a permutation of `0..len` characterised as the stable lexicographic
sort (sorted w.r.t. the non-`Greater` row comparison, ties keeping the
original index order); consequently each target is a permutation (equal
multiset) of its source, and the output row tuples are lexicographically
non-decreasing.
-/
theorem compute_sorted_spec (froms : List (List Fr)) (len : Nat) (hne : froms ≠ [])
    (hlen : ∀ f ∈ froms, f.length = len) :
    ∃ π : List Nat, compute_sorted froms
        = some (.ok (froms.map (fun f => π.map (fun i => f.getD i 0))))
      ∧ π.Perm (List.range len)
      ∧ (∀ f ∈ froms, (π.map (fun i => f.getD i 0)).Perm f)
      ∧ π.Pairwise (fun i j => lexCmp froms i j ≠ .gt)
      ∧ π.Pairwise (fun i j => lexCmp froms i j = .eq → i ≤ j)
      ∧ (π.map (rowOf froms)).Pairwise (fun r s => lexCmpRows r s ≠ .gt) := by
  refine ⟨(List.range len).mergeSort (sortLe froms), ?_, ?_, ?_, ?_, ?_, ?_⟩
  · -- the returned value
    rcases hf : froms with _ | ⟨f0, rest⟩
    · exact absurd hf hne
    have hwin : windowsAllEq ((f0 :: rest).map List.length) = true := by
      apply windowsAllEq_const _ len
      intro x hx
      rcases List.mem_map.mp hx with ⟨f, hfm, rfl⟩
      exact hlen f (hf ▸ hfm)
    have hlen0 : f0.length = len := hlen f0 (hf ▸ List.mem_cons_self _ _)
    unfold compute_sorted
    rw [hwin, if_neg (by simp)]
    show some (Except.ok ((f0 :: rest).map
      (fun f => ((List.range f0.length).mergeSort (sortLe (f0 :: rest))).map
        (fun i => f.getD i 0)))) = _
    rw [hlen0]
  · exact List.mergeSort_perm _ _
  · intro f hfm
    have hflen : f.length = len := hlen f hfm
    have hp : ((List.range len).mergeSort (sortLe froms)).Perm (List.range len) :=
      List.mergeSort_perm _ _
    have hmapped := hp.map (fun i => f.getD i 0)
    have h2 : (List.range len).map (fun i => f.getD i 0) = f := by
      rw [← hflen, map_getD_range]
    rw [h2] at hmapped
    exact hmapped
  · -- sortedness
    have hs := List.sorted_mergeSort (sortLe_trans froms) (sortLe_total froms)
      (List.range len)
    apply List.Pairwise.imp ?_ hs
    intro a b hab
    exact (sortLe_eq_true_iff froms a b).mp hab
  · -- stability
    have hdiag : ∀ x ∈ ((List.range len).enum.mergeSort (List.enumLE (sortLe froms))),
        x.2 = x.1 := by
      intro x hx
      have hx' : x ∈ (List.range len).enum := List.mem_mergeSort.mp hx
      have h1 := List.mem_enum_iff_get?.mp hx'
      rw [List.get?_eq_getElem?] at h1
      by_cases hlt : x.1 < len
      · rw [List.getElem?_range hlt] at h1
        exact (Option.some.inj h1).symm
      · rw [List.getElem?_eq_none (by simpa using Nat.le_of_not_lt hlt)] at h1
        exact absurd h1 (by simp)
    have hsortedS := List.sorted_mergeSort
      (List.enumLE_trans (sortLe_trans froms)) (List.enumLE_total (sortLe_total froms))
      ((List.range len).enum)
    have hmap : ((List.range len).enum.mergeSort (List.enumLE (sortLe froms))).map
        (fun x => x.2) = (List.range len).mergeSort (sortLe froms) :=
      List.mergeSort_enum
    rw [← hmap, List.pairwise_map]
    apply List.Pairwise.imp_of_mem ?_ hsortedS
    intro x y hxm hym hxy
    intro heq
    have hx2 := hdiag x hxm
    have hy2 := hdiag y hym
    unfold List.enumLE at hxy
    have h1 : sortLe froms x.2 y.2 = true := by
      by_contra hcon
      rw [if_neg hcon] at hxy
      exact Bool.noConfusion hxy
    have h2 : sortLe froms y.2 x.2 = true := by
      rw [sortLe_eq_true_iff, lexCmp_swap, heq]
      decide
    rw [if_pos h1, if_pos h2] at hxy
    have h3 := of_decide_eq_true hxy
    rw [hx2, hy2]
    exact h3
  · -- row tuples are non-decreasing
    have hs := List.sorted_mergeSort (sortLe_trans froms) (sortLe_total froms)
      (List.range len)
    rw [List.pairwise_map]
    apply List.Pairwise.imp ?_ hs
    intro a b hab
    rw [lexCmpRows_rowOf]
    exact (sortLe_eq_true_iff froms a b).mp hab

/-- C1 witness: the theorem applied to the single source column `[3,1,2]`
(spec scenario S4: the stable sort permutation is `[1,2,0]` and the target is
`[1,2,3]`). -/
theorem compute_sorted_spec_witness :
    ([[ (3:Fr), 1, 2]] ≠ ([] : List (List Fr)))
    ∧ ∃ π : List Nat, compute_sorted [[ (3:Fr), 1, 2]]
        = some (.ok ([[ (3:Fr), 1, 2]].map (fun f => π.map (fun i => f.getD i 0))))
      ∧ π.Perm (List.range 3)
      ∧ (∀ f ∈ [[ (3:Fr), 1, 2]], (π.map (fun i => f.getD i 0)).Perm f)
      ∧ π.Pairwise (fun i j => lexCmp [[ (3:Fr), 1, 2]] i j ≠ .gt)
      ∧ π.Pairwise (fun i j => lexCmp [[ (3:Fr), 1, 2]] i j = .eq → i ≤ j)
      ∧ (π.map (rowOf [[ (3:Fr), 1, 2]])).Pairwise (fun r s => lexCmpRows r s ≠ .gt) :=
  ⟨by simp, compute_sorted_spec [[ (3:Fr), 1, 2]] 3 (by simp) (by simp)⟩

/-- The doubling loop reaches at least `n` when the fuel allows the power to
grow past it. -/
theorem le_nextPow2Go (fuel n : Nat) : ∀ power, n ≤ 2 ^ fuel * power →
    n ≤ nextPow2Go fuel n power := by
  induction fuel with
  | zero =>
    intro power h
    simpa using h
  | succ m ih =>
    intro power h
    simp only [nextPow2Go]
    split
    · apply ih
      have he : 2 ^ (m + 1) * power = 2 ^ m * (power * 2) := by ring
      rw [← he]
      exact h
    · omega

/-- `next_power_of_two n` is at least `n`. -/
theorem le_next_power_of_two (n : Nat) : n ≤ next_power_of_two n := by
  apply le_nextPow2Go
  have h := Nat.lt_two_pow n
  omega

/-- The start value is a lower bound of a maximum fold. -/
theorem le_foldl_max_init (l : List Nat) (a : Nat) : a ≤ l.foldl Nat.max a := by
  induction l generalizing a with
  | nil => exact Nat.le_refl a
  | cons y ys ih => exact le_trans (Nat.le_max_left a y) (ih (Nat.max a y))

/-- Every member is a lower bound of a maximum fold. -/
theorem le_foldl_max (l : List Nat) (a x : Nat) (hx : x ∈ l) :
    x ≤ l.foldl Nat.max a := by
  induction l generalizing a with
  | nil => cases hx
  | cons y ys ih =>
    rcases List.mem_cons.mp hx with rfl | h'
    · exact le_trans (Nat.le_max_right a x) (le_foldl_max_init ys (Nat.max a x))
    · exact ih (Nat.max a y) h'

/-- A filled column is never longer than the maximum length. -/
theorem length_le_maxLen (cols : List PadColumn) (c : PadColumn) (hc : c ∈ cols)
    (xs : List Fr) (hxs : c.value = some xs) : xs.length ≤ maxLen cols := by
  unfold maxLen
  apply le_foldl_max
  apply List.mem_filterMap.mpr
  exact ⟨c, hc, by rw [colLen, hxs]; rfl⟩

/-- `takeD` on a short-enough list appends default entries at the end. -/
theorem takeD_of_le (n : Nat) (l : List Fr) (d : Fr) (h : l.length ≤ n) :
    l.takeD n d = l ++ List.replicate (n - l.length) d := by
  induction l generalizing n with
  | nil => simp
  | cons x xs ih =>
    cases n with
    | zero => exact absurd h (by simp)
    | succ m =>
      simp only [List.takeD_succ, List.head?_cons, Option.getD_some, List.tail_cons,
        List.cons_append, List.length_cons]
      rw [ih m (by simpa using h)]
      simp [Nat.succ_sub_succ]

/-- Zero-padding a short-enough list prepends zeros. -/
theorem zeroPad_eq (padSize : Nat) (xs : List Fr) (h : xs.length ≤ padSize) :
    zeroPad padSize xs = List.replicate (padSize - xs.length) 0 ++ xs := by
  unfold zeroPad
  rw [takeD_of_le padSize xs.reverse 0 (by simpa using h)]
  rw [List.reverse_append, List.reverse_replicate, List.reverse_reverse,
    List.length_reverse]

/-- Overwriting the zero-padded region with 255 turns the prepended zeros into
255s. -/
theorem overwrite255_zeroPad (padSize : Nat) (xs : List Fr) :
    overwrite255 (padSize - xs.length)
        (List.replicate (padSize - xs.length) (0 : Fr) ++ xs)
      = List.replicate (padSize - xs.length) (255 : Fr) ++ xs := by
  unfold overwrite255
  have hl : (List.replicate (padSize - xs.length) (0 : Fr)).length = padSize - xs.length :=
    List.length_replicate _ _
  rw [List.take_left' hl, List.drop_left' hl, List.map_replicate]

/-- **C5** (amended).  Under the Full strategy every filled column is extended
to `M = next_power_of_two (max_len + 1)` entries by prepending copies of a
padding value, but that value is 0 for EVERY column other than `binary/NOT`
(which gets 255) — the per-kind padding values of `padding_value_for`, in
particular the evaluation of a composite column's defining expression, are
never consulted by the Full arm of `ConstraintSet::pad`. -/
theorem pad_full_spec (cols : List PadColumn)
    (hv : ∀ c ∈ cols, c.handle = binaryNot → c.value.isSome = true)
    (huniq : (cols.map (fun c => c.handle)).Nodup) :
    pad_full cols = some (cols.map (fun c =>
      { c with value := c.value.map (fun xs =>
          List.replicate (padTo cols - xs.length)
            (if c.handle = binaryNot then (255 : Fr) else 0) ++ xs) })) := by
  have hlen : ∀ c ∈ cols, ∀ xs, c.value = some xs → xs.length ≤ padTo cols := by
    intro c hc xs hxs
    have h1 := length_le_maxLen cols c hc xs hxs
    have h2 := le_next_power_of_two (maxLen cols + 1)
    unfold padTo
    omega
  have hzero : ∀ c ∈ cols, ¬ c.handle = binaryNot →
      ({ c with value := c.value.map (zeroPad (padTo cols)) } : PadColumn)
        = { c with value := c.value.map (fun xs =>
            List.replicate (padTo cols - xs.length)
              (if c.handle = binaryNot then (255 : Fr) else 0) ++ xs) } := by
    intro c hc hne
    have h0 : (if c.handle = binaryNot then (255 : Fr) else 0) = 0 := if_neg hne
    simp only [h0]
    congr 1
    cases hval : c.value with
    | none => rfl
    | some xs =>
      simp only [Option.map_some']
      exact congrArg some (zeroPad_eq (padTo cols) xs (hlen c hc xs hval))
  cases hfind : cols.find? (fun c => c.handle == binaryNot) with
  | none =>
    simp only [pad_full, hfind]
    congr 1
    apply List.map_congr_left
    intro c hc
    have hne : ¬ c.handle = binaryNot := by
      have h := List.find?_eq_none.mp hfind c hc
      simpa using h
    exact hzero c hc hne
  | some c₀ =>
    have hc₀mem : c₀ ∈ cols := List.mem_of_find?_eq_some hfind
    have hc₀h : c₀.handle = binaryNot := by
      have h := List.find?_some hfind
      simpa using h
    obtain ⟨xs₀, hxs₀⟩ := Option.isSome_iff_exists.mp (hv c₀ hc₀mem hc₀h)
    simp only [pad_full, hfind, colLen, hxs₀, Option.map_some']
    rw [List.map_map]
    congr 1
    apply List.map_congr_left
    intro c hc
    dsimp only [Function.comp]
    by_cases hch : c.handle = binaryNot
    · have hceq : c = c₀ :=
        List.inj_on_of_nodup_map huniq hc hc₀mem (by rw [hch, hc₀h])
      subst hceq
      rw [if_pos (by simpa using hch)]
      have h255 : (if c.handle = binaryNot then (255 : Fr) else 0) = 255 := if_pos hch
      simp only [h255, hxs₀, Option.map_some']
      congr 2
      rw [zeroPad_eq (padTo cols) xs₀ (hlen c hc xs₀ hxs₀), overwrite255_zeroPad]
    · rw [if_neg (by simpa using hch)]
      exact hzero c hc hch

/-- **C5 (counterexample)**.  For a composite column whose defining expression
is the constant 1 (so its claimed padding value, the expression on all-zero
dependencies, is 1), the Full strategy still prepends 0, not 1: the claimed
per-kind padding values are ignored. -/
theorem pad_full_composite_not_padding_value :
    evalE (Expression.Const 1 (some 1)) 0 (fun _ _ _ => some (0 : Fr)) false = some 1
    ∧ pad_full [compositeOneCol]
        = some [{ compositeOneCol with value := some [(0 : Fr), 5] }]
    ∧ (some [(0 : Fr), 5] : Option (List Fr))
        ≠ some (List.replicate (padTo [compositeOneCol] - 1) (1 : Fr) ++ [(5 : Fr)]) := by
  refine ⟨?_, ?_, ?_⟩
  · simp [evalE]
  · rfl
  · decide

/-- Witness: `pad_full_spec` applied to a concrete two-column set. -/
theorem pad_full_spec_witness :
    pad_full padWitnessCols = some (padWitnessCols.map (fun c =>
      { c with value := c.value.map (fun xs =>
          List.replicate (padTo padWitnessCols - xs.length)
            (if c.handle = binaryNot then (255 : Fr) else 0) ++ xs) })) :=
  pad_full_spec padWitnessCols (by decide) (by decide)
